import Mathlib

/-!
Verification of the image-deduplication core of `dedupe_images.py`.

The embedding models the pure logic of the script:
* `hamming` — the Hamming distance between two perceptual-hash bit vectors
  (`imagehash` hash subtraction counts differing bit positions);
* `find_duplicates` — the pairwise comparison loop over
  `combinations(metadata.items(), 2)`;
* `choose_keeper` — the keeper policy (resolution, then byte size, then the
  first argument);
* `processLoop` / `process_duplicates` — the resolution loop with the
  `handled` set, modelled with an explicit filesystem oracle `fsOk` telling
  whether the move/delete of a given path succeeds; a failing action raises,
  which the model renders as `Except.error` (the Python code has no
  try/except around `shutil.move` / `os.remove`, so an exception propagates
  out of the loop);
* `write_csv` — the CSV report (header row followed by the data rows).

The fingerprint store (`metadata` dict) is modelled as a total function
`String → ImageInfo` together with the insertion-ordered key list; image
decoding and hashing themselves (PIL / imagehash) are external collaborators
and stay abstract.
-/

/-- One entry of the fingerprint store: the tuple `(hash, resolution, filesize)`
returned by `image_info`. The perceptual hash is a bit vector. -/
structure ImageInfo where
  hash : List Bool
  res : Nat
  size : Nat

/-- A candidate pair appended by `find_duplicates`: `(p1, p2, dist)`. -/
structure Dupe where
  p1 : String
  p2 : String
  dist : Nat
deriving DecidableEq, Repr

/-- One report row built by `process_duplicates`:
`[keep, remove, meta[keep][1], meta[remove][1], meta[keep][2], meta[remove][2], dist, action]`. -/
structure AuditRow where
  kept_file : String
  duplicate_file : String
  kept_resolution : Nat
  duplicate_resolution : Nat
  kept_filesize : Nat
  duplicate_filesize : Nat
  hash_distance : Nat
  action : String
deriving DecidableEq, Repr

/-- `HASH_THRESHOLD = 6` from the CONFIG section. -/
def HASH_THRESHOLD : Nat := 6

/-- Hamming distance of two hash bit vectors: `imagehash` implements `h1 - h2`
as the count of differing bit positions. -/
def hamming (h1 h2 : List Bool) : Nat :=
  (List.zipWith (fun a b => a != b) h1 h2).count true

/-- The scanner's qualification test: `dist <= HASH_THRESHOLD`. -/
def qualifies (dist : Nat) : Bool :=
  decide (dist ≤ HASH_THRESHOLD)

/-- Inner part of the comparison loop: compare one path `p` against every
later path, in order, appending a `Dupe` whenever the distance qualifies. -/
def scanOne (meta : String → ImageInfo) (p : String) : List String → List Dupe
  | [] => []
  | q :: rest =>
    if qualifies (hamming (meta p).hash (meta q).hash) then
      ⟨p, q, hamming (meta p).hash (meta q).hash⟩ :: scanOne meta p rest
    else
      scanOne meta p rest

/-- The comparison phase of `find_duplicates`: iterate over
`combinations(metadata.items(), 2)` (each earlier key paired with each later
key, in dict insertion order) and keep the pairs within the threshold. -/
def find_duplicates (meta : String → ImageInfo) : List String → List Dupe
  | [] => []
  | p :: rest => scanOne meta p rest ++ find_duplicates meta rest

/-- `choose_keeper(a, b, meta)`: higher resolution wins, then `size_a >= size_b`
keeps `a`, otherwise `b`. Returns `(keeper, removed)`. -/
def choose_keeper (a b : String) (meta : String → ImageInfo) : String × String :=
  if (meta a).res > (meta b).res then (a, b)
  else if (meta b).res > (meta a).res then (b, a)
  else if (meta a).size ≥ (meta b).size then (a, b)
  else (b, a)

/-- The `action` string recorded for a processed pair: `"moved"` when a move
directory was given, else `"deleted"`. -/
def actionString (move_dir : Option String) : String :=
  match move_dir with
  | some _ => "moved"
  | none => "deleted"

/-- The report row appended for one resolved pair, in source order:
keeper path, removed path, their resolutions, their sizes, distance, action. -/
def mkRow (meta : String → ImageInfo) (keep remove : String) (dist : Nat)
    (action : String) : AuditRow :=
  ⟨keep, remove, (meta keep).res, (meta remove).res,
   (meta keep).size, (meta remove).size, dist, action⟩

/-- The main loop of `process_duplicates` over the candidate list, carrying the
`handled` set (paths already removed). A pair with a handled member is
skipped. Otherwise the keeper is chosen, the removed path is added to
`handled`, the filesystem action runs (`fsOk` says whether the move/delete of
that path succeeds; on failure the uncaught exception aborts the loop, which
the model renders as `Except.error` carrying the failing path), and the
report row is appended. -/
def processLoop (meta : String → ImageInfo) (move_dir : Option String)
    (fsOk : String → Bool) :
    List Dupe → List String → Except String (List AuditRow)
  | [], _ => Except.ok []
  | d :: rest, handled =>
    if d.p1 ∈ handled ∨ d.p2 ∈ handled then
      processLoop meta move_dir fsOk rest handled
    else if fsOk (choose_keeper d.p1 d.p2 meta).2 then
      Except.map
        (fun rows =>
          mkRow meta (choose_keeper d.p1 d.p2 meta).1
            (choose_keeper d.p1 d.p2 meta).2 d.dist (actionString move_dir)
            :: rows)
        (processLoop meta move_dir fsOk rest
          ((choose_keeper d.p1 d.p2 meta).2 :: handled))
    else
      Except.error (choose_keeper d.p1 d.p2 meta).2

/-- The CSV header row of `write_csv`. -/
def CSV_HEADERS : List String :=
  ["kept_file", "duplicate_file", "kept_resolution", "duplicate_resolution",
   "kept_filesize", "duplicate_filesize", "hash_distance", "action"]

/-- The cell rendering of one report row (the CSV writer stringifies the
numeric fields). -/
def auditRowCells (r : AuditRow) : List String :=
  [r.kept_file, r.duplicate_file, toString r.kept_resolution,
   toString r.duplicate_resolution, toString r.kept_filesize,
   toString r.duplicate_filesize, toString r.hash_distance, r.action]

/-- `write_csv(path, rows)`: the rows written to the report file — the header
row followed by the data rows in order. -/
def write_csv (rows : List AuditRow) : List (List String) :=
  CSV_HEADERS :: rows.map auditRowCells

/-- `process_duplicates(dupes, meta, move_dir, csv_path)`: run the loop and,
afterwards, write the CSV only `if csv_path and report_rows:`. The result is
the audit rows together with the report content actually written (`none` when
no report file is produced); an uncaught action failure propagates. -/
def process_duplicates (meta : String → ImageInfo) (dupes : List Dupe)
    (move_dir csv_path : Option String) (fsOk : String → Bool) :
    Except String (List AuditRow × Option (List (List String))) :=
  match processLoop meta move_dir fsOk dupes [] with
  | Except.error e => Except.error e
  | Except.ok rows =>
    Except.ok (rows,
      if csv_path.isSome ∧ rows ≠ [] then some (write_csv rows) else none)

/-- Filesystem oracle for runs where every move/delete succeeds. -/
def alwaysOk : String → Bool := fun _ => true

-- ------------------------------------------------------------------
-- Concrete fixtures used by witnesses and counterexamples
-- ------------------------------------------------------------------

/-- Fixture: resolutions A=10, B=5, C=20, all sizes 100 (C outranks A). -/
def metaChain : String → ImageInfo := fun p =>
  if p = "A" then ⟨[], 10, 100⟩
  else if p = "B" then ⟨[], 5, 100⟩
  else ⟨[], 20, 100⟩

/-- Fixture: two full-tie records plus distinct others (for keeper-policy
witnesses). -/
def metaTie : String → ImageInfo := fun _ => ⟨[], 4, 10⟩

/-- Fixture: resolutions A=1, B=2, C=3 (B outranks A, C outranks B). -/
def metaRising : String → ImageInfo := fun p =>
  if p = "A" then ⟨[], 1, 100⟩
  else if p = "B" then ⟨[], 2, 100⟩
  else ⟨[], 3, 100⟩

/-- Fixture: resolutions A=2, B=1, C=1 (A outranks B). -/
def metaFalling : String → ImageInfo := fun p =>
  if p = "A" then ⟨[], 2, 100⟩
  else ⟨[], 1, 100⟩

/-- Filesystem oracle whose move/delete fails exactly on path "B". -/
def failsOnB : String → Bool := fun p => !(p == "B")

/-- Whether a candidate pair is (either orientation of) the unordered pair
`{x, y}`. -/
def sameUnorderedPair (x y : String) (d : Dupe) : Bool :=
  (d.p1 == x && d.p2 == y) || (d.p1 == y && d.p2 == x)

/-- Fixture: three hashed records; "a" and "b" differ in 1 bit, "a" and "c"
in 4 bits, "b" and "c" in 3 bits. -/
def metaHash : String → ImageInfo := fun p =>
  if p = "a" then ⟨[true, true, false, false], 1, 1⟩
  else if p = "b" then ⟨[true, false, false, false], 1, 1⟩
  else ⟨[false, false, true, true], 1, 1⟩

-- ==================================================================
-- Theorems
-- ==================================================================

/-- The keeper policy returns one of the two orientations of its arguments. -/
theorem choose_keeper_cases (meta : String → ImageInfo) (a b : String) :
    choose_keeper a b meta = (a, b) ∨ choose_keeper a b meta = (b, a) := by
  unfold choose_keeper
  split_ifs <;> simp

/-- C1: `choose_keeper(a, b)` keeps the record with the higher resolution; on a
resolution tie, the one with the higher byte size; on a full tie, the
first-named argument `a` — and returns the other record as removed. -/
theorem chooseKeeper_policy (meta : String → ImageInfo) (a b : String) :
    ((meta a).res > (meta b).res → choose_keeper a b meta = (a, b)) ∧
    ((meta b).res > (meta a).res → choose_keeper a b meta = (b, a)) ∧
    ((meta a).res = (meta b).res → (meta a).size > (meta b).size →
      choose_keeper a b meta = (a, b)) ∧
    ((meta a).res = (meta b).res → (meta b).size > (meta a).size →
      choose_keeper a b meta = (b, a)) ∧
    ((meta a).res = (meta b).res → (meta a).size = (meta b).size →
      choose_keeper a b meta = (a, b)) := by
  unfold choose_keeper
  refine ⟨fun h1 => ?_, fun h2 => ?_, fun h3 h4 => ?_, fun h5 h6 => ?_,
    fun h7 h8 => ?_⟩ <;> split_ifs <;> first | rfl | omega

/-- Witness for C1: on a full tie the first-named argument is kept. -/
theorem chooseKeeper_policy_witness :
    choose_keeper "a" "b" metaTie = ("a", "b") :=
  (chooseKeeper_policy metaTie "a" "b").2.2.2.2 rfl rfl

/-- C8: `choose_keeper(a,b)` and `choose_keeper(b,a)` pick the same keeper
whenever the two records differ in resolution or in byte size; only on a full
tie do they differ, each keeping its own first argument. -/
theorem chooseKeeper_orientation (meta : String → ImageInfo) (a b : String) :
    (((meta a).res ≠ (meta b).res ∨ (meta a).size ≠ (meta b).size) →
      choose_keeper a b meta = choose_keeper b a meta) ∧
    ((meta a).res = (meta b).res → (meta a).size = (meta b).size →
      (choose_keeper a b meta).1 = a ∧ (choose_keeper b a meta).1 = b) := by
  unfold choose_keeper
  constructor
  · intro h
    split_ifs <;> first | rfl | omega
  · intro h1 h2
    split_ifs <;> first | exact ⟨rfl, rfl⟩ | omega

/-- Witness for C8: records differing in size pick the same keeper in both
call orders, and full-tie records each keep the first argument. -/
theorem chooseKeeper_orientation_witness :
    choose_keeper "A" "B" metaChain = choose_keeper "B" "A" metaChain ∧
    (choose_keeper "a" "b" metaTie).1 = "a" ∧
    (choose_keeper "b" "a" metaTie).1 = "b" :=
  ⟨(chooseKeeper_orientation metaChain "A" "B").1 (Or.inl (by decide)),
   (chooseKeeper_orientation metaTie "a" "b").2 rfl rfl⟩

/-- Helper: every audit row of a successful loop run names a removed path that
was not yet in the `handled` set the loop started from. -/
theorem processLoop_ok_not_handled (meta : String → ImageInfo)
    (md : Option String) (fs : String → Bool) :
    ∀ (dupes : List Dupe) (handled : List String) (rows : List AuditRow),
      processLoop meta md fs dupes handled = Except.ok rows →
      ∀ r ∈ rows, r.duplicate_file ∉ handled := by
  intro dupes
  induction dupes with
  | nil =>
    intro handled rows h r hr
    simp only [processLoop] at h
    cases h
    simp at hr
  | cons d rest ih =>
    intro handled rows h r hr
    simp only [processLoop] at h
    by_cases hskip : d.p1 ∈ handled ∨ d.p2 ∈ handled
    · rw [if_pos hskip] at h
      exact ih handled rows h r hr
    · rw [if_neg hskip] at h
      by_cases hfs : fs (choose_keeper d.p1 d.p2 meta).2 = true
      · rw [if_pos hfs] at h
        cases hrec : processLoop meta md fs rest
            ((choose_keeper d.p1 d.p2 meta).2 :: handled) with
        | ok rs =>
          rw [hrec] at h
          simp only [Except.map] at h
          cases h
          push_neg at hskip
          rcases List.mem_cons.mp hr with hhead | htail
          · subst hhead
            simp only [mkRow]
            rcases choose_keeper_cases meta d.p1 d.p2 with hck | hck <;>
              rw [hck] <;> [exact hskip.2; exact hskip.1]
          · intro hmem
            exact ih _ rs hrec r htail (List.mem_cons_of_mem _ hmem)
        | error e =>
          rw [hrec] at h
          simp only [Except.map] at h
          cases h
      · rw [if_neg hfs] at h
        cases h

/-- Helper: the removed paths of the audit rows of a successful loop run are
pairwise distinct. -/
theorem processLoop_ok_pairwise (meta : String → ImageInfo)
    (md : Option String) (fs : String → Bool) :
    ∀ (dupes : List Dupe) (handled : List String) (rows : List AuditRow),
      processLoop meta md fs dupes handled = Except.ok rows →
      List.Pairwise (fun r s => r.duplicate_file ≠ s.duplicate_file) rows := by
  intro dupes
  induction dupes with
  | nil =>
    intro handled rows h
    simp only [processLoop] at h
    cases h
    exact List.Pairwise.nil
  | cons d rest ih =>
    intro handled rows h
    simp only [processLoop] at h
    by_cases hskip : d.p1 ∈ handled ∨ d.p2 ∈ handled
    · rw [if_pos hskip] at h
      exact ih handled rows h
    · rw [if_neg hskip] at h
      by_cases hfs : fs (choose_keeper d.p1 d.p2 meta).2 = true
      · rw [if_pos hfs] at h
        cases hrec : processLoop meta md fs rest
            ((choose_keeper d.p1 d.p2 meta).2 :: handled) with
        | ok rs =>
          rw [hrec] at h
          simp only [Except.map] at h
          cases h
          refine List.Pairwise.cons (fun s hs => ?_) (ih _ rs hrec)
          have hnot := processLoop_ok_not_handled meta md fs rest _ rs hrec s hs
          simp only [mkRow]
          intro heq
          exact hnot (heq ▸ List.mem_cons_self _ _)
        | error e =>
          rw [hrec] at h
          simp only [Except.map] at h
          cases h
      · rw [if_neg hfs] at h
        cases h

/-- Helper: every audit row of a successful loop run originates from one of
the candidate pairs, its keeper and removed paths being exactly the two
components `choose_keeper` returned for that pair. -/
theorem processLoop_ok_origin (meta : String → ImageInfo)
    (md : Option String) (fs : String → Bool) :
    ∀ (dupes : List Dupe) (handled : List String) (rows : List AuditRow),
      processLoop meta md fs dupes handled = Except.ok rows →
      ∀ r ∈ rows, ∃ d ∈ dupes,
        r.kept_file = (choose_keeper d.p1 d.p2 meta).1 ∧
        r.duplicate_file = (choose_keeper d.p1 d.p2 meta).2 := by
  intro dupes
  induction dupes with
  | nil =>
    intro handled rows h r hr
    simp only [processLoop] at h
    cases h
    simp at hr
  | cons d rest ih =>
    intro handled rows h r hr
    simp only [processLoop] at h
    by_cases hskip : d.p1 ∈ handled ∨ d.p2 ∈ handled
    · rw [if_pos hskip] at h
      obtain ⟨e, he, hr1, hr2⟩ := ih handled rows h r hr
      exact ⟨e, List.mem_cons_of_mem _ he, hr1, hr2⟩
    · rw [if_neg hskip] at h
      by_cases hfs : fs (choose_keeper d.p1 d.p2 meta).2 = true
      · rw [if_pos hfs] at h
        cases hrec : processLoop meta md fs rest
            ((choose_keeper d.p1 d.p2 meta).2 :: handled) with
        | ok rs =>
          rw [hrec] at h
          simp only [Except.map] at h
          cases h
          rcases List.mem_cons.mp hr with hhead | htail
          · subst hhead
            exact ⟨d, List.mem_cons_self _ _, rfl, rfl⟩
          · obtain ⟨e, he, hr1, hr2⟩ := ih _ rs hrec r htail
            exact ⟨e, List.mem_cons_of_mem _ he, hr1, hr2⟩
        | error e =>
          rw [hrec] at h
          simp only [Except.map] at h
          cases h
      · rw [if_neg hfs] at h
        cases h

/-- C2: stepping the reducer over one candidate pair: if either member is
already in the resolved set, the pair is skipped and nothing is emitted;
otherwise the keeper resolver is invoked, the removed path joins the
resolved set, and exactly one decision row (keeper, removed, distance) is
emitted in front of the rest of the run. -/
theorem reducer_step (meta : String → ImageInfo) (md : Option String)
    (fs : String → Bool) (d : Dupe) (rest : List Dupe) (handled : List String) :
    (d.p1 ∈ handled ∨ d.p2 ∈ handled →
      processLoop meta md fs (d :: rest) handled =
        processLoop meta md fs rest handled) ∧
    (d.p1 ∉ handled → d.p2 ∉ handled →
      fs (choose_keeper d.p1 d.p2 meta).2 = true →
      processLoop meta md fs (d :: rest) handled =
        Except.map
          (fun rows =>
            mkRow meta (choose_keeper d.p1 d.p2 meta).1
              (choose_keeper d.p1 d.p2 meta).2 d.dist (actionString md)
              :: rows)
          (processLoop meta md fs rest
            ((choose_keeper d.p1 d.p2 meta).2 :: handled))) := by
  constructor
  · intro h
    simp only [processLoop]
    rw [if_pos h]
  · intro h1 h2 hfs
    simp only [processLoop]
    rw [if_neg (by tauto), if_pos hfs]

/-- Witness for C2: a pair with a handled member is skipped; a fresh pair
emits exactly one decision. -/
theorem reducer_step_witness :
    (processLoop metaChain none alwaysOk [⟨"A", "B", 1⟩] ["B"] =
      processLoop metaChain none alwaysOk [] ["B"]) ∧
    (processLoop metaChain none alwaysOk [⟨"A", "B", 1⟩] [] =
      Except.map
        (fun rows =>
          mkRow metaChain (choose_keeper "A" "B" metaChain).1
            (choose_keeper "A" "B" metaChain).2 1 (actionString none)
            :: rows)
        (processLoop metaChain none alwaysOk []
          ((choose_keeper "A" "B" metaChain).2 :: []))) :=
  ⟨(reducer_step metaChain none alwaysOk ⟨"A", "B", 1⟩ [] ["B"]).1
      (Or.inr (by decide)),
   (reducer_step metaChain none alwaysOk ⟨"A", "B", 1⟩ [] []).2
      (by decide) (by decide) rfl⟩

/-- C7: within a single run (started with an empty resolved set), the removed
paths of the emitted decisions are pairwise distinct. -/
theorem removed_paths_distinct (meta : String → ImageInfo) (md : Option String)
    (fs : String → Bool) (dupes : List Dupe) (rows : List AuditRow)
    (h : processLoop meta md fs dupes [] = Except.ok rows) :
    List.Pairwise (fun r s => r.duplicate_file ≠ s.duplicate_file) rows :=
  processLoop_ok_pairwise meta md fs dupes [] rows h

/-- Witness for C7 on a concrete two-decision run. -/
theorem removed_paths_distinct_witness :
    List.Pairwise (fun r s : AuditRow => r.duplicate_file ≠ s.duplicate_file)
      [⟨"A", "B", 10, 5, 100, 100, 1, "deleted"⟩,
       ⟨"C", "A", 20, 10, 100, 100, 2, "deleted"⟩] :=
  removed_paths_distinct metaChain none alwaysOk
    [⟨"A", "B", 1⟩, ⟨"A", "C", 2⟩] _ rfl

/-- C3 counterexample: a concrete run where the second decision's removed
path ("A") equals the first decision's keeper path ("A") — the resolved set
only tracks removed paths, so a previous keeper can later be removed. -/
theorem keeper_later_removed_cex :
    (processLoop metaChain none alwaysOk
        [⟨"A", "B", 1⟩, ⟨"A", "C", 2⟩] []).toOption.map
        (fun rows => (rows.map AuditRow.kept_file,
                      rows.map AuditRow.duplicate_file)) =
      some (["A", "C"], ["B", "A"]) := by rfl

/-- C3 (amended): within a single run the removed paths of the emitted
decisions are pairwise distinct, and (when every candidate pair has distinct
members) no decision removes its own keeper — but a *previous* keeper may
later be removed. -/
theorem removed_paths_fresh (meta : String → ImageInfo) (md : Option String)
    (fs : String → Bool) (dupes : List Dupe) (rows : List AuditRow)
    (h : processLoop meta md fs dupes [] = Except.ok rows)
    (hd : ∀ d ∈ dupes, d.p1 ≠ d.p2) :
    List.Pairwise (fun r s => r.duplicate_file ≠ s.duplicate_file) rows ∧
    ∀ r ∈ rows, r.duplicate_file ≠ r.kept_file := by
  refine ⟨processLoop_ok_pairwise meta md fs dupes [] rows h, fun r hr => ?_⟩
  obtain ⟨d, hdm, h1, h2⟩ :=
    processLoop_ok_origin meta md fs dupes [] rows h r hr
  rcases choose_keeper_cases meta d.p1 d.p2 with hck | hck
  · rw [h1, h2, hck]
    exact Ne.symm (hd d hdm)
  · rw [h1, h2, hck]
    exact hd d hdm

/-- Witness for the amended C3 on a concrete one-decision run. -/
theorem removed_paths_fresh_witness :
    List.Pairwise (fun r s : AuditRow => r.duplicate_file ≠ s.duplicate_file)
      [⟨"A", "B", 2, 1, 100, 100, 1, "deleted"⟩] ∧
    ∀ r ∈ [(⟨"A", "B", 2, 1, 100, 100, 1, "deleted"⟩ : AuditRow)],
      r.duplicate_file ≠ r.kept_file :=
  removed_paths_fresh metaFalling none alwaysOk [⟨"A", "B", 1⟩] _ rfl
    (by decide)

/-- C5 counterexample: with two independent candidate pairs, a fully
successful run yields both audit rows, but when the first removal fails the
run aborts with the propagated error — the second decision's action is never
attempted (the whole `process_duplicates` call raises, so no report row for
it and no CSV exist). -/
theorem action_failure_aborts_cex :
    (processLoop metaFalling none alwaysOk
        [⟨"A", "B", 1⟩, ⟨"C", "D", 2⟩] [] =
      Except.ok [⟨"A", "B", 2, 1, 100, 100, 1, "deleted"⟩,
                 ⟨"C", "D", 1, 1, 100, 100, 2, "deleted"⟩]) ∧
    (processLoop metaFalling none failsOnB
        [⟨"A", "B", 1⟩, ⟨"C", "D", 2⟩] [] = Except.error "B") ∧
    (process_duplicates metaFalling [⟨"A", "B", 1⟩, ⟨"C", "D", 2⟩]
        none (some "report.csv") failsOnB = Except.error "B") :=
  ⟨rfl, rfl, rfl⟩

/-- C5 (amended): a failing move/delete is not caught per item: as soon as a
decision's action fails, the loop aborts with that error, independently of
the remaining candidate pairs (which are therefore never attempted). -/
theorem action_failure_aborts (meta : String → ImageInfo) (md : Option String)
    (fs : String → Bool) (d : Dupe) (rest : List Dupe) (handled : List String)
    (h1 : d.p1 ∉ handled) (h2 : d.p2 ∉ handled)
    (hfs : fs (choose_keeper d.p1 d.p2 meta).2 = false) :
    processLoop meta md fs (d :: rest) handled =
      Except.error (choose_keeper d.p1 d.p2 meta).2 := by
  simp only [processLoop]
  rw [if_neg (by tauto), if_neg (by simp [hfs])]

/-- Witness for the amended C5. -/
theorem action_failure_aborts_witness :
    processLoop metaFalling none failsOnB [⟨"A", "B", 1⟩] [] =
      Except.error "B" :=
  action_failure_aborts metaFalling none failsOnB ⟨"A", "B", 1⟩ [] []
    (by decide) (by decide) (by decide)

/-- C6 counterexample: candidate pairs (A,B) at distance 3 and (B,C) at
distance 4, where B is chosen as keeper over A (A removed): the later pair
(B,C) is *not* skipped — C is compared after all and even removes B. -/
theorem chain_keeper_compared_cex :
    (processLoop metaRising none alwaysOk
        [⟨"A", "B", 3⟩, ⟨"B", "C", 4⟩] []).toOption.map
        (fun rows => rows.map (fun r => (r.kept_file, r.duplicate_file))) =
      some [("B", "A"), ("C", "B")] := by rfl

/-- C6 (amended): distances 3 and 4 qualify at threshold 6 while 9 does not;
and when the pair (A,B) is resolved with A as keeper and B removed, the later
pair (B,C) is skipped, so the run's only decision is (A,B) and C is never
compared (it remains unresolved). -/
theorem chain_scenario (meta : String → ImageInfo) (A B C : String)
    (hk : choose_keeper A B meta = (A, B)) :
    qualifies 3 = true ∧ qualifies 4 = true ∧ qualifies 9 = false ∧
    processLoop meta none alwaysOk [⟨A, B, 3⟩, ⟨B, C, 4⟩] [] =
      Except.ok [mkRow meta A B 3 (actionString none)] := by
  refine ⟨rfl, rfl, rfl, ?_⟩
  simp [processLoop, hk, alwaysOk, Except.map]

/-- Witness for the amended C6. -/
theorem chain_scenario_witness :
    qualifies 3 = true ∧ qualifies 4 = true ∧ qualifies 9 = false ∧
    processLoop metaFalling none alwaysOk
        [⟨"A", "B", 3⟩, ⟨"B", "C", 4⟩] [] =
      Except.ok [mkRow metaFalling "A" "B" 3 (actionString none)] :=
  chain_scenario metaFalling "A" "B" "C" rfl

/-- Helper: every audit row of a successful loop run carries the resolutions
and byte sizes of its own keeper and removed paths from the fingerprint
store, and the action string determined by the move-directory option. -/
theorem processLoop_ok_fields (meta : String → ImageInfo) (md : Option String)
    (fs : String → Bool) :
    ∀ (dupes : List Dupe) (handled : List String) (rows : List AuditRow),
      processLoop meta md fs dupes handled = Except.ok rows →
      ∀ r ∈ rows,
        r.kept_resolution = (meta r.kept_file).res ∧
        r.duplicate_resolution = (meta r.duplicate_file).res ∧
        r.kept_filesize = (meta r.kept_file).size ∧
        r.duplicate_filesize = (meta r.duplicate_file).size ∧
        r.action = actionString md := by
  intro dupes
  induction dupes with
  | nil =>
    intro handled rows h r hr
    simp only [processLoop] at h
    cases h
    simp at hr
  | cons d rest ih =>
    intro handled rows h r hr
    simp only [processLoop] at h
    by_cases hskip : d.p1 ∈ handled ∨ d.p2 ∈ handled
    · rw [if_pos hskip] at h
      exact ih handled rows h r hr
    · rw [if_neg hskip] at h
      by_cases hfs : fs (choose_keeper d.p1 d.p2 meta).2 = true
      · rw [if_pos hfs] at h
        cases hrec : processLoop meta md fs rest
            ((choose_keeper d.p1 d.p2 meta).2 :: handled) with
        | ok rs =>
          rw [hrec] at h
          simp only [Except.map] at h
          cases h
          rcases List.mem_cons.mp hr with hhead | htail
          · subst hhead
            exact ⟨rfl, rfl, rfl, rfl, rfl⟩
          · exact ih _ rs hrec r htail
        | error e =>
          rw [hrec] at h
          simp only [Except.map] at h
          cases h
      · rw [if_neg hfs] at h
        cases h

/-- C9: when a report is written, its first row is exactly the header
`kept_file, duplicate_file, kept_resolution, duplicate_resolution,
kept_filesize, duplicate_filesize, hash_distance, action`, followed by one
cell row per audit record in the order the actions were applied, each
carrying that record's keeper path, removed path, their resolutions from the
store, their byte sizes from the store, the pair's hash distance and the
action taken. -/
theorem report_layout (meta : String → ImageInfo) (md : Option String)
    (fs : String → Bool) (dupes : List Dupe) (csvp : String)
    (rows : List AuditRow) (out : Option (List (List String)))
    (h : process_duplicates meta dupes md (some csvp) fs =
      Except.ok (rows, out))
    (hne : rows ≠ []) :
    out = some (CSV_HEADERS :: rows.map auditRowCells) ∧
    ∀ r ∈ rows, auditRowCells r =
      [r.kept_file, r.duplicate_file, toString (meta r.kept_file).res,
       toString (meta r.duplicate_file).res,
       toString (meta r.kept_file).size,
       toString (meta r.duplicate_file).size, toString r.hash_distance,
       actionString md] := by
  unfold process_duplicates at h
  cases hrec : processLoop meta md fs dupes [] with
  | error e =>
    rw [hrec] at h
    cases h
  | ok rows0 =>
    rw [hrec] at h
    simp only [Except.ok.injEq, Prod.mk.injEq] at h
    obtain ⟨h1, h2⟩ := h
    subst h1
    rw [if_pos ⟨rfl, hne⟩] at h2
    refine ⟨h2.symm, fun r hr => ?_⟩
    obtain ⟨e1, e2, e3, e4, e5⟩ :=
      processLoop_ok_fields meta md fs dupes [] _ hrec r hr
    simp [auditRowCells, e1, e2, e3, e4, e5]

/-- Witness for C9 on a concrete one-decision run with a report path. -/
theorem report_layout_witness :
    (some (write_csv [(⟨"A", "B", 2, 1, 100, 100, 1, "deleted"⟩ : AuditRow)]) =
      some (CSV_HEADERS ::
        [(⟨"A", "B", 2, 1, 100, 100, 1, "deleted"⟩ : AuditRow)].map
          auditRowCells)) ∧
    ∀ r ∈ [(⟨"A", "B", 2, 1, 100, 100, 1, "deleted"⟩ : AuditRow)],
      auditRowCells r =
        [r.kept_file, r.duplicate_file, toString (metaFalling r.kept_file).res,
         toString (metaFalling r.duplicate_file).res,
         toString (metaFalling r.kept_file).size,
         toString (metaFalling r.duplicate_file).size,
         toString r.hash_distance, actionString none] :=
  report_layout metaFalling none alwaysOk [⟨"A", "B", 1⟩] "report.csv" _ _
    rfl (by decide)

/-- C10: when a report path is supplied but the run produced zero report rows,
no report is written at all (the CSV writer is never invoked, so not even a
header-only report exists). -/
theorem empty_run_no_report (meta : String → ImageInfo) (md : Option String)
    (fs : String → Bool) (dupes : List Dupe) (csvp : String)
    (rows : List AuditRow) (out : Option (List (List String)))
    (h : process_duplicates meta dupes md (some csvp) fs =
      Except.ok (rows, out))
    (hz : rows = []) : out = none := by
  unfold process_duplicates at h
  cases hrec : processLoop meta md fs dupes [] with
  | error e =>
    rw [hrec] at h
    cases h
  | ok rows0 =>
    rw [hrec] at h
    simp only [Except.ok.injEq, Prod.mk.injEq] at h
    obtain ⟨h1, h2⟩ := h
    subst h1
    subst hz
    rw [if_neg (fun hc => hc.2 rfl)] at h2
    exact h2.symm

/-- Witness for C10: a run over an empty candidate list with a report path
writes nothing. -/
theorem empty_run_no_report_witness : (none : Option (List (List String))) = none :=
  empty_run_no_report metaTie none alwaysOk [] "report.csv" [] none rfl rfl

/-- The Bool pair test, as a proposition. -/
theorem sameUnorderedPair_iff (x y : String) (d : Dupe) :
    sameUnorderedPair x y d = true ↔
      (d.p1 = x ∧ d.p2 = y) ∨ (d.p1 = y ∧ d.p2 = x) := by
  simp [sameUnorderedPair]

/-- Helper: every pair emitted while comparing `p` against the later paths
`l` has `p` first and a member of `l` second. -/
theorem scanOne_mem (meta : String → ImageInfo) (p : String) :
    ∀ (l : List String) (d : Dupe), d ∈ scanOne meta p l →
      d.p1 = p ∧ d.p2 ∈ l := by
  intro l
  induction l with
  | nil =>
    intro d hd
    simp [scanOne] at hd
  | cons q rest ih =>
    intro d hd
    simp only [scanOne] at hd
    by_cases hq : qualifies (hamming (meta p).hash (meta q).hash) = true
    · rw [if_pos hq] at hd
      rcases List.mem_cons.mp hd with h | h
      · subst h
        exact ⟨rfl, List.mem_cons_self _ _⟩
      · obtain ⟨h1, h2⟩ := ih d h
        exact ⟨h1, List.mem_cons_of_mem _ h2⟩
    · rw [if_neg hq] at hd
      obtain ⟨h1, h2⟩ := ih d hd
      exact ⟨h1, List.mem_cons_of_mem _ h2⟩

/-- Helper: both members of every emitted candidate pair come from the
scanned path list. -/
theorem find_duplicates_mem (meta : String → ImageInfo) :
    ∀ (l : List String) (d : Dupe), d ∈ find_duplicates meta l →
      d.p1 ∈ l ∧ d.p2 ∈ l := by
  intro l
  induction l with
  | nil =>
    intro d hd
    simp [find_duplicates] at hd
  | cons p rest ih =>
    intro d hd
    simp only [find_duplicates] at hd
    rcases List.mem_append.mp hd with h | h
    · obtain ⟨h1, h2⟩ := scanOne_mem meta p rest d h
      refine ⟨?_, List.mem_cons_of_mem _ h2⟩
      rw [h1]
      exact List.mem_cons_self _ _
    · obtain ⟨h1, h2⟩ := ih d h
      exact ⟨List.mem_cons_of_mem _ h1, List.mem_cons_of_mem _ h2⟩

/-- Helper: comparing `p` against later paths contributes nothing to the
count of a pair `{x, y}` not involving `p`. -/
theorem scanOne_countP_ne (meta : String → ImageInfo) (p : String)
    (l : List String) (x y : String) (hx : p ≠ x) (hy : p ≠ y) :
    (scanOne meta p l).countP (sameUnorderedPair x y) = 0 := by
  refine List.countP_eq_zero.mpr (fun d hd hpred => ?_)
  obtain ⟨h1, _⟩ := scanOne_mem meta p l d hd
  rcases (sameUnorderedPair_iff x y d).mp hpred with ⟨ha, _⟩ | ⟨ha, _⟩
  · exact hx (h1.symm.trans ha)
  · exact hy (h1.symm.trans ha)

/-- Helper: comparing `p` against later paths that do not contain `y`
contributes nothing to the count of the pair `{p, y}`. -/
theorem scanOne_countP_notmem (meta : String → ImageInfo) (p : String)
    (l : List String) (y : String) (hy : y ∉ l) (hpy : p ≠ y) :
    (scanOne meta p l).countP (sameUnorderedPair p y) = 0 := by
  refine List.countP_eq_zero.mpr (fun d hd hpred => ?_)
  obtain ⟨h1, h2⟩ := scanOne_mem meta p l d hd
  rcases (sameUnorderedPair_iff p y d).mp hpred with ⟨_, hb⟩ | ⟨ha, _⟩
  · exact hy (hb ▸ h2)
  · exact hpy (h1.symm.trans ha)

/-- Helper: comparing `p` against a duplicate-free list of later paths that
contains `y` counts the pair `{p, y}` exactly once if its distance
qualifies, and zero times otherwise. -/
theorem scanOne_countP_mem (meta : String → ImageInfo) (p : String) :
    ∀ (l : List String) (y : String), y ∈ l → l.Nodup → p ≠ y →
      (scanOne meta p l).countP (sameUnorderedPair p y) =
        if qualifies (hamming (meta p).hash (meta y).hash) then 1 else 0 := by
  intro l
  induction l with
  | nil =>
    intro y hy
    simp at hy
  | cons q rest ih =>
    intro y hy hnd hpy
    obtain ⟨hq_notin, hnd'⟩ := List.nodup_cons.mp hnd
    by_cases hqy : q = y
    · subst hqy
      simp only [scanOne]
      by_cases hqual : qualifies (hamming (meta p).hash (meta q).hash) = true
      · rw [if_pos hqual, if_pos hqual]
        rw [List.countP_cons_of_pos _ _ (by simp [sameUnorderedPair])]
        rw [scanOne_countP_notmem meta p rest q hq_notin hpy]
      · rw [if_neg hqual, if_neg hqual]
        exact scanOne_countP_notmem meta p rest q hq_notin hpy
    · have hy' : y ∈ rest := by
        rcases List.mem_cons.mp hy with h | h
        · exact absurd h.symm hqy
        · exact h
      simp only [scanOne]
      by_cases hqual : qualifies (hamming (meta p).hash (meta q).hash) = true
      · rw [if_pos hqual]
        rw [List.countP_cons_of_neg _ _ ?hneg]
        case hneg =>
          intro hpred
          rcases (sameUnorderedPair_iff p y _).mp hpred with ⟨_, hb⟩ | ⟨ha, _⟩
          · exact hqy hb
          · exact hpy ha
        exact ih y hy' hnd' hpy
      · rw [if_neg hqual]
        exact ih y hy' hnd' hpy

/-- Helper: the whole scan over a list not containing `x` contributes
nothing to the count of the pair `{x, y}`. -/
theorem find_duplicates_countP_zero (meta : String → ImageInfo)
    (l : List String) (x y : String) (hx : x ∉ l) :
    (find_duplicates meta l).countP (sameUnorderedPair x y) = 0 := by
  refine List.countP_eq_zero.mpr (fun d hd hpred => ?_)
  obtain ⟨h1, h2⟩ := find_duplicates_mem meta l d hd
  rcases (sameUnorderedPair_iff x y d).mp hpred with ⟨ha, _⟩ | ⟨_, hb⟩
  · exact hx (ha ▸ h1)
  · exact hx (hb ▸ h2)

/-- Helper: if `y` occurs among the later paths and the distance qualifies,
the pair `(p, y)` with its Hamming distance is emitted while comparing `p`. -/
theorem scanOne_mem_of_qualifies (meta : String → ImageInfo) (p : String) :
    ∀ (l : List String) (y : String), y ∈ l →
      qualifies (hamming (meta p).hash (meta y).hash) = true →
      (⟨p, y, hamming (meta p).hash (meta y).hash⟩ : Dupe) ∈
        scanOne meta p l := by
  intro l
  induction l with
  | nil =>
    intro y hy
    simp at hy
  | cons q rest ih =>
    intro y hy hqual
    simp only [scanOne]
    rcases List.mem_cons.mp hy with h | h
    · subst h
      rw [if_pos hqual]
      exact List.mem_cons_self _ _
    · by_cases hq : qualifies (hamming (meta p).hash (meta q).hash) = true
      · rw [if_pos hq]
        exact List.mem_cons_of_mem _ (ih y h hqual)
      · rw [if_neg hq]
        exact ih y h hqual

/-- C4: for two distinct records `x` before `y` in the (duplicate-free)
store order, the scanner's output contains the unordered pair `{x, y}` — in
either orientation — exactly once when their Hamming distance is at most the
threshold and zero times otherwise; in the qualifying case the emitted
element is exactly `(x, y, distance)`. -/
theorem scanner_exact (meta : String → ImageInfo) (x y : String) :
    ∀ (paths : List String), paths.Nodup → [x, y].Sublist paths →
      (find_duplicates meta paths).countP (sameUnorderedPair x y) =
        (if qualifies (hamming (meta x).hash (meta y).hash) then 1 else 0) ∧
      (qualifies (hamming (meta x).hash (meta y).hash) = true →
        (⟨x, y, hamming (meta x).hash (meta y).hash⟩ : Dupe) ∈
          find_duplicates meta paths) := by
  intro paths
  induction paths with
  | nil =>
    intro _ hsub
    simp at hsub
  | cons p rest ih =>
    intro hnd hsub
    obtain ⟨hp_notin, hnd'⟩ := List.nodup_cons.mp hnd
    cases hsub with
    | cons a hsub' =>
      have hx : x ∈ rest := hsub'.subset (List.mem_cons_self _ _)
      have hy : y ∈ rest :=
        hsub'.subset (List.mem_cons_of_mem _ (List.mem_cons_self _ _))
      obtain ⟨ihc, ihm⟩ := ih hnd' hsub'
      constructor
      · simp only [find_duplicates, List.countP_append]
        rw [scanOne_countP_ne meta p rest x y
          (fun he => hp_notin (he ▸ hx)) (fun he => hp_notin (he ▸ hy))]
        rw [ihc]
        simp
      · intro hqual
        simp only [find_duplicates]
        exact List.mem_append_right _ (ihm hqual)
    | cons₂ a hsub' =>
      have hy : y ∈ rest := List.singleton_sublist.mp hsub'
      have hxy : x ≠ y := fun he => hp_notin (he ▸ hy)
      constructor
      · simp only [find_duplicates, List.countP_append]
        rw [scanOne_countP_mem meta x rest y hy hnd' hxy]
        rw [find_duplicates_countP_zero meta rest x y hp_notin]
        simp
      · intro hqual
        simp only [find_duplicates]
        exact List.mem_append_left _ (scanOne_mem_of_qualifies meta x rest y hy hqual)

/-- Witness for C4 on a concrete three-image store. -/
theorem scanner_exact_witness :
    (find_duplicates metaHash ["a", "b", "c"]).countP
        (sameUnorderedPair "a" "c") =
      (if qualifies (hamming (metaHash "a").hash (metaHash "c").hash)
        then 1 else 0) ∧
    (qualifies (hamming (metaHash "a").hash (metaHash "c").hash) = true →
      (⟨"a", "c", hamming (metaHash "a").hash (metaHash "c").hash⟩ : Dupe) ∈
        find_duplicates metaHash ["a", "b", "c"]) :=
  scanner_exact metaHash "a" "c" ["a", "b", "c"] (by decide) (by decide)
